import Mathlib

/-!
Verification of the job-scheduling and batch-execution core of the AMS
repository (`ams-back/app/services/{ocr_scheduler,batch_ocr_engine,gpu_manager}.py`).

Shallow embedding conventions:
* Python floats (confidence scores, timings) are embedded as exact rationals `ℚ`;
  bounding-box coordinates are embedded as `ℤ` (the code casts them with `int(...)`).
* Python `//` (floor division) is `Int.fdiv`; Python `int(...)` applied to a
  non-negative product is truncation toward zero, `Int.tdiv`.
* Wall-clock measurements (`time.time()` deltas) are not modelled; the
  corresponding fields are carried but set to `0`.
* The EasyOCR reader is an external library object: an image is modelled by the
  list of raw readings (`readtext` output) that the reader would produce for it,
  and reader construction is modelled by a boolean "construction succeeded" flag
  (`_get_ocr_reader` returns `None` exactly when construction raised).
-/

/-- `OCRResult` from `batch_ocr_engine.py` (lines 31-37): one recognized text
item with its confidence, bounding box `(x1, y1, x2, y2)` and per-item timing. -/
structure OCRResult where
  text : String
  confidence : ℚ
  x1 : Int
  y1 : Int
  x2 : Int
  y2 : Int
  processing_time : ℚ
deriving DecidableEq, Repr

/-- `BatchOCRResult` from `batch_ocr_engine.py` (lines 39-46). -/
structure BatchOCRResult where
  results : List OCRResult
  batch_size : Nat
  total_processing_time : ℚ
  average_confidence : ℚ
  device_used : String
deriving DecidableEq, Repr

/-- Python `min` over a non-empty integer list (`min([...])`); junk value `0`
for `[]`, which the code never passes. -/
def listMin : List Int → Int
  | [] => 0
  | x :: xs => xs.foldl min x

/-- Python `max` over a non-empty integer list. -/
def listMax : List Int → Int
  | [] => 0
  | x :: xs => xs.foldl max x

/-- The adjacency test of `_merge_adjacent_text` (lines 458-462): the candidate
`cur` continues the group ending in `lastE` when
`abs(cur.bbox[1] - lastE.bbox[1]) < 20` and `0 <= cur.bbox[0] - lastE.bbox[2] < 50`. -/
def Adjacent (lastE cur : OCRResult) : Prop :=
  (cur.y1 - lastE.y1).natAbs < 20 ∧ 0 ≤ cur.x1 - lastE.x2 ∧ cur.x1 - lastE.x2 < 50

instance (a b : OCRResult) : Decidable (Adjacent a b) := by
  unfold Adjacent; infer_instance

/-- `_merge_text_group` (lines 487-514): space-joined text, arithmetic-mean
confidence, union bounding box, summed processing time. The code only calls it
on groups of length `> 1`. -/
def merge_text_group (group : List OCRResult) : OCRResult :=
  { text := String.intercalate " " (group.map (·.text))
    confidence := (group.map (·.confidence)).sum / group.length
    x1 := listMin (group.map (·.x1))
    y1 := listMin (group.map (·.y1))
    x2 := listMax (group.map (·.x2))
    y2 := listMax (group.map (·.y2))
    processing_time := (group.map (·.processing_time)).sum }

/-- Emission of a finished group in `_merge_adjacent_text` (lines 465-479):
a group of length `> 1` is merged into one result, otherwise its members are
appended unchanged. -/
def emitGroup (group : List OCRResult) : List OCRResult :=
  if group.length > 1 then [merge_text_group group] else group

/-- The scanning loop of `_merge_adjacent_text` (lines 451-479).  The current
group is carried in reverse order, so its head is Python's
`current_group[-1]` (`last_in_group`); `acc` is `merged_results`. -/
def mergeLoop : List OCRResult → List OCRResult → List OCRResult → List OCRResult
  | [], revGroup, acc => acc ++ emitGroup revGroup.reverse
  | c :: rest, lastE :: gs, acc =>
      if Adjacent lastE c then
        mergeLoop rest (c :: lastE :: gs) acc
      else
        mergeLoop rest [c] (acc ++ emitGroup (lastE :: gs).reverse)
  | c :: rest, [], acc => mergeLoop rest [c] acc

/-- `_merge_adjacent_text` (lines 445-485): single left-to-right scan that
merges maximal runs of pairwise-adjacent consecutive results. -/
def merge_adjacent_text (results : List OCRResult) : List OCRResult :=
  if results.length ≤ 1 then results
  else
    match results with
    | [] => []
    | r :: rest => mergeLoop rest [r] []

/-- The contiguous-run decomposition performed implicitly by the scan of
`_merge_adjacent_text`: the input is split, left to right, into maximal runs of
consecutive results passing the adjacency test. Mirrors `mergeLoop` but keeps
the groups instead of merging them. -/
def adjChunksLoop : List OCRResult → List OCRResult → List (List OCRResult)
  | [], revGroup => [revGroup.reverse]
  | c :: rest, lastE :: gs =>
      if Adjacent lastE c then adjChunksLoop rest (c :: lastE :: gs)
      else (lastE :: gs).reverse :: adjChunksLoop rest [c]
  | c :: rest, [] => adjChunksLoop rest [c]

/-- Greedy decomposition of a result list into the runs that
`_merge_adjacent_text` merges. -/
def adjChunks : List OCRResult → List (List OCRResult)
  | [] => []
  | r :: rest => adjChunksLoop rest [r]

/-! ### Properties of the adjacency merge -/

theorem merge_text_group_singleton (r : OCRResult) : merge_text_group [r] = r := by
  cases r
  simp [merge_text_group, listMin, listMax]
  exact rfl

theorem emitGroup_eq_merge (g : List OCRResult) (h : g ≠ []) :
    emitGroup g = [merge_text_group g] := by
  match g, h with
  | [r], _ =>
    simp [emitGroup, merge_text_group_singleton]
  | r1 :: r2 :: gs, _ =>
    simp [emitGroup]

theorem mergeLoop_eq_chunks (rest : List OCRResult) :
    ∀ lastE gs acc, mergeLoop rest (lastE :: gs) acc =
      acc ++ (adjChunksLoop rest (lastE :: gs)).map merge_text_group := by
  induction rest with
  | nil =>
    intro lastE gs acc
    simp [mergeLoop, adjChunksLoop, emitGroup_eq_merge]
  | cons c rest ih =>
    intro lastE gs acc
    by_cases h : Adjacent lastE c
    · simp [mergeLoop, adjChunksLoop, h, ih]
    · simp [mergeLoop, adjChunksLoop, h, ih, emitGroup_eq_merge]

theorem adjChunksLoop_join (rest : List OCRResult) :
    ∀ lastE gs, (adjChunksLoop rest (lastE :: gs)).flatten =
      (lastE :: gs).reverse ++ rest := by
  induction rest with
  | nil => intro lastE gs; simp [adjChunksLoop]
  | cons c rest ih =>
    intro lastE gs
    by_cases h : Adjacent lastE c
    · simp [adjChunksLoop, h, ih]
    · simp [adjChunksLoop, h, ih]

theorem adjChunksLoop_ne_nil (rest : List OCRResult) :
    ∀ lastE gs, ∀ ch ∈ adjChunksLoop rest (lastE :: gs), ch ≠ [] := by
  induction rest with
  | nil =>
    intro lastE gs ch hch
    simp [adjChunksLoop] at hch
    simp [hch]
  | cons c rest ih =>
    intro lastE gs ch hch
    by_cases h : Adjacent lastE c
    · simp [adjChunksLoop, h] at hch
      exact ih c (lastE :: gs) ch hch
    · simp [adjChunksLoop, h] at hch
      rcases hch with hch | hch
      · simp [hch]
      · exact ih c [] ch hch

theorem adjChunksLoop_chain (rest : List OCRResult) :
    ∀ lastE gs, List.Chain' Adjacent (lastE :: gs).reverse →
      ∀ ch ∈ adjChunksLoop rest (lastE :: gs), List.Chain' Adjacent ch := by
  induction rest with
  | nil =>
    intro lastE gs hg ch hch
    simp [adjChunksLoop] at hch
    subst hch
    simpa using hg
  | cons c rest ih =>
    intro lastE gs hg ch hch
    by_cases h : Adjacent lastE c
    · simp only [adjChunksLoop, if_pos h] at hch
      refine ih c (lastE :: gs) ?_ ch hch
      have hrev : (c :: lastE :: gs).reverse = (lastE :: gs).reverse ++ [c] := by simp
      rw [hrev, List.chain'_append]
      refine ⟨hg, List.chain'_singleton c, ?_⟩
      intro x hx y hy
      rw [List.getLast?_reverse] at hx
      simp at hx hy
      rw [← hx, ← hy]
      exact h
    · simp only [adjChunksLoop, if_neg h] at hch
      rcases List.mem_cons.mp hch with hch | hch
      · exact hch ▸ hg
      · exact ih c [] (List.chain'_singleton c) ch hch

/-- The head of the first chunk emitted by `adjChunksLoop` is the bottom of the
current group stack (the earliest element of the current run). -/
theorem adjChunksLoop_head (rest : List OCRResult) :
    ∀ lastE gs, ∃ c0 cs, adjChunksLoop rest (lastE :: gs) = c0 :: cs ∧
      c0.head? = (lastE :: gs).reverse.head? := by
  induction rest with
  | nil => intro lastE gs; exact ⟨(lastE :: gs).reverse, [], rfl, rfl⟩
  | cons c rest ih =>
    intro lastE gs
    by_cases h : Adjacent lastE c
    · obtain ⟨c0, cs, heq, hhead⟩ := ih c (lastE :: gs)
      refine ⟨c0, cs, by simp [adjChunksLoop, h, heq], ?_⟩
      rw [hhead]
      cases hrev : (lastE :: gs).reverse with
      | nil => exact absurd hrev (by simp)
      | cons a t => simp [hrev]
    · exact ⟨(lastE :: gs).reverse, adjChunksLoop rest [c], by simp [adjChunksLoop, h], rfl⟩

/-- Non-adjacency across chunk boundaries: the last element of each emitted
run is not adjacent to the first element of the next run (maximality of the
greedy runs). -/
theorem adjChunksLoop_maximal (rest : List OCRResult) :
    ∀ lastE gs, List.Chain'
      (fun c1 c2 => ∀ x ∈ c1.getLast?, ∀ y ∈ c2.head?, ¬ Adjacent x y)
      (adjChunksLoop rest (lastE :: gs)) := by
  induction rest with
  | nil => intro lastE gs; simp [adjChunksLoop]
  | cons c rest ih =>
    intro lastE gs
    by_cases h : Adjacent lastE c
    · simpa [adjChunksLoop, h] using ih c (lastE :: gs)
    · simp only [adjChunksLoop, if_neg h]
      obtain ⟨c0, cs, heq, hhead⟩ := adjChunksLoop_head rest c []
      rw [heq, List.chain'_cons']
      constructor
      · intro y hy x hx z hz
        simp at hy
        subst hy
        rw [List.getLast?_reverse] at hx
        simp at hx
        rw [hhead] at hz
        simp at hz
        rw [← hx, ← hz]
        exact h
      · rw [← heq]
        exact ih c []

/-- The full scan equals merging every greedy run. -/
theorem merge_adjacent_eq_chunks (rs : List OCRResult) :
    merge_adjacent_text rs = (adjChunks rs).map merge_text_group := by
  match rs with
  | [] => rfl
  | [r] =>
    simp [merge_adjacent_text, adjChunks, adjChunksLoop, merge_text_group_singleton]
  | r1 :: r2 :: rest =>
    simp only [merge_adjacent_text, adjChunks]
    rw [if_neg (by simp)]
    simpa using mergeLoop_eq_chunks (r2 :: rest) r1 [] []

/-- The greedy runs partition the input, in order. -/
theorem adjChunks_flatten (rs : List OCRResult) : (adjChunks rs).flatten = rs := by
  match rs with
  | [] => rfl
  | r :: rest => simpa using adjChunksLoop_join rest r []

theorem adjChunks_ne_nil (rs : List OCRResult) : ∀ ch ∈ adjChunks rs, ch ≠ [] := by
  match rs with
  | [] => intro ch hch; simp [adjChunks] at hch
  | r :: rest => exact adjChunksLoop_ne_nil rest r []

theorem adjChunks_chain (rs : List OCRResult) :
    ∀ ch ∈ adjChunks rs, List.Chain' Adjacent ch := by
  match rs with
  | [] => intro ch hch; simp [adjChunks] at hch
  | r :: rest => exact adjChunksLoop_chain rest r [] (by simp)

theorem adjChunks_maximal (rs : List OCRResult) :
    List.Chain' (fun c1 c2 => ∀ x ∈ c1.getLast?, ∀ y ∈ c2.head?, ¬ Adjacent x y)
      (adjChunks rs) := by
  match rs with
  | [] => simp [adjChunks]
  | r :: rest => exact adjChunksLoop_maximal rest r []

/-- C7: the adjacency merge is a single left-to-right scan that replaces each
maximal contiguous run of consecutive results passing the adjacency test
(vertical top-coordinate gap `< 20`, horizontal gap in `[0, 50)`) by one result
whose text is the space-joined concatenation, whose confidence is the
arithmetic mean, and whose bounding box is the union rectangle of the run. -/
theorem mergeAdjacent_scan_merges_adjacent_runs (rs : List OCRResult) :
    merge_adjacent_text rs = (adjChunks rs).map merge_text_group ∧
    (adjChunks rs).flatten = rs ∧
    (∀ ch ∈ adjChunks rs, ch ≠ [] ∧ List.Chain' Adjacent ch) ∧
    List.Chain' (fun c1 c2 => ∀ x ∈ c1.getLast?, ∀ y ∈ c2.head?, ¬ Adjacent x y)
      (adjChunks rs) ∧
    (∀ g, merge_text_group g =
      { text := String.intercalate " " (g.map (·.text))
        confidence := (g.map (·.confidence)).sum / g.length
        x1 := listMin (g.map (·.x1))
        y1 := listMin (g.map (·.y1))
        x2 := listMax (g.map (·.x2))
        y2 := listMax (g.map (·.y2))
        processing_time := (g.map (·.processing_time)).sum }) :=
  ⟨merge_adjacent_eq_chunks rs, adjChunks_flatten rs,
   fun ch hch => ⟨adjChunks_ne_nil rs ch hch, adjChunks_chain rs ch hch⟩,
   adjChunks_maximal rs, fun _ => rfl⟩

/-- A three-element input on which a merged union box becomes adjacent to the
following result even though the original boundary pair was not adjacent. -/
def idemCounterList : List OCRResult :=
  [⟨"a", 1, 0, 10, 10, 20, 0⟩, ⟨"b", 1, 10, 25, 20, 35, 0⟩, ⟨"c", 1, 20, 5, 30, 15, 0⟩]

/-- C8 counterexample: the adjacency merge is NOT idempotent.  On
`idemCounterList` the first pass merges the first two items into a box whose
top is `10` and whose right edge is `20`; that box IS adjacent to the third
item (`|5 - 10| < 20`, gap `0`), so a second pass merges again. -/
theorem mergeAdjacent_not_idempotent :
    merge_adjacent_text (merge_adjacent_text idemCounterList) ≠
      merge_adjacent_text idemCounterList := by decide

/-- C8 (amended): the adjacency merge is order-preserving — the output is,
in order, the per-run merge of a left-to-right partition of the input into
contiguous runs — but it is not idempotent. -/
theorem mergeAdjacent_order_preserving (rs : List OCRResult) :
    (adjChunks rs).flatten = rs ∧
    merge_adjacent_text rs = (adjChunks rs).map merge_text_group :=
  ⟨adjChunks_flatten rs, merge_adjacent_eq_chunks rs⟩

/-! ### Batch execution: `process_image_batch` and the OCR worker -/

/-- One raw EasyOCR reading, as returned by `reader.readtext`: a polygon of
points, the recognized text, and a confidence.  EasyOCR is an external
library; an image is modelled by the readings the reader produces for it. -/
structure Reading where
  points : List (Int × Int)
  rtext : String
  confidence : ℚ
deriving DecidableEq, Repr

/-- An input image, modelled by its raw OCR readings (see module docstring). -/
abbrev ImageData := List Reading

/-- `OCRConfig` from `batch_ocr_engine.py` (lines 48-56), restricted to the
fields that influence the embedded control flow.  `languages` and
`preprocessing` only configure the external reader and pixel-level transforms
and are not modelled. -/
structure OCRConfig where
  batch_size : Nat := 8
  confidence_threshold : ℚ := 1/2
  postprocessing : List String := ["filter_confidence", "merge_text"]

/-- The default-constructed `OCRConfig()` (lines 78-85). -/
def defaultConfig : OCRConfig := {}

/-- Conversion of one raw reading inside `_ocr_batch_worker` (lines 381-395):
bounding box from the min/max of the polygon coordinates, stripped text.
Per-item wall-clock timing is modelled as `0`. -/
def convertReading (rd : Reading) : OCRResult :=
  { text := rd.rtext.trim
    confidence := rd.confidence
    x1 := listMin (rd.points.map (·.1))
    y1 := listMin (rd.points.map (·.2))
    x2 := listMax (rd.points.map (·.1))
    y2 := listMax (rd.points.map (·.2))
    processing_time := 0 }

/-- `_ocr_batch_worker` (lines 362-404): if the reader could not be constructed
(`_get_ocr_reader` returned `None`, lines 147-175) the worker logs and returns
the empty result list; otherwise it keeps, per image in order, the readings
whose confidence is at least the configured threshold. -/
def ocr_batch_worker (readerAvailable : Bool) (threshold : ℚ)
    (batch : List ImageData) : List OCRResult :=
  if readerAvailable then
    (batch.map (fun img => img.filterMap (fun rd =>
      if threshold ≤ rd.confidence then some (convertReading rd) else none))).flatten
  else []

/-- `_remove_duplicate_text` (lines 516-532): keep the first occurrence of each
case-insensitive stripped text. -/
def removeDupLoop : List OCRResult → List String → List OCRResult
  | [], _ => []
  | r :: rest, seen =>
      let key := r.text.toLower.trim
      if key ∈ seen then removeDupLoop rest seen
      else r :: removeDupLoop rest (key :: seen)

def remove_duplicate_text (results : List OCRResult) : List OCRResult :=
  removeDupLoop results []

/-- `_apply_postprocessing` (lines 420-443): dispatch on the step name;
unknown names leave the results unchanged. -/
def apply_postprocessing (cfg : OCRConfig) (results : List OCRResult)
    (name : String) : List OCRResult :=
  if name = "filter_confidence" then
    results.filter (fun r => cfg.confidence_threshold ≤ r.confidence)
  else if name = "merge_text" then merge_adjacent_text results
  else if name = "remove_duplicates" then remove_duplicate_text results
  else if name = "sort_by_position" then
    results.mergeSort (fun a b => decide (a.y1 < b.y1 ∨ (a.y1 = b.y1 ∧ a.x1 ≤ b.x1)))
  else results

/-- `_postprocess_batch` (lines 406-418): fold the configured steps in order. -/
def postprocess_batch (cfg : OCRConfig) (results : List OCRResult) : List OCRResult :=
  cfg.postprocessing.foldl (apply_postprocessing cfg) results

/-- The sub-batch split `for i in range(0, len(images), k): images[i:i+k]`
(lines 195-196), with an explicit fuel bounded by the list length. -/
def toBatchesAux {α : Type} : Nat → Nat → List α → List (List α)
  | 0, _, _ => []
  | _ + 1, _, [] => []
  | fuel + 1, k, x :: xs => (x :: xs).take k :: toBatchesAux fuel k ((x :: xs).drop k)

def toBatches {α : Type} (k : Nat) (l : List α) : List (List α) :=
  toBatchesAux l.length k l

/-- `process_image_batch` (lines 177-223).  `readerAvailable` models whether
`_get_ocr_reader` succeeds; `optimalBatch` is the value `_get_optimal_batch_size`
returned (lines 185-186).  Note that `total_confidence` is accumulated over the
PRE-postprocessing results (lines 200-202) while the denominator of
`average_confidence` is the POST-postprocessing length (line 209). -/
def process_image_batch (cfg : OCRConfig) (readerAvailable : Bool)
    (device : String) (optimalBatch : Nat) (images : List ImageData) : BatchOCRResult :=
  if images = [] then ⟨[], 0, 0, 0, device⟩
  else
    let all_results := ((toBatches optimalBatch images).map
        (ocr_batch_worker readerAvailable cfg.confidence_threshold)).flatten
    let total_confidence := (all_results.map (·.confidence)).sum
    let final_results := postprocess_batch cfg all_results
    let average_confidence := if final_results = [] then 0
      else total_confidence / (final_results.length : ℚ)
    ⟨final_results, images.length, 0, average_confidence, device⟩

/-- `process_image_batch` as seen by its caller (`OCRScheduler._process_job`,
`ocr_scheduler.py` line 355): the Python function catches every exception
(lines 181-183, 221-223) and always returns normally, so the call is always
`Except.ok`; a failure would have to be an `Except.error` to trigger the
scheduler's retry path (`_handle_job_failure`). -/
def process_image_batch_call (cfg : OCRConfig) (readerAvailable : Bool)
    (device : String) (optimalBatch : Nat) (images : List ImageData) :
    Except String BatchOCRResult :=
  Except.ok (process_image_batch cfg readerAvailable device optimalBatch images)

/-! ### Properties of batch execution -/

theorem worker_false (threshold : ℚ) (batch : List ImageData) :
    ocr_batch_worker false threshold batch = [] := rfl

theorem worker_append (ra : Bool) (threshold : ℚ) (a b : List ImageData) :
    ocr_batch_worker ra threshold (a ++ b) =
      ocr_batch_worker ra threshold a ++ ocr_batch_worker ra threshold b := by
  cases ra <;> simp [ocr_batch_worker]

theorem flatten_map_worker (ra : Bool) (threshold : ℚ) :
    ∀ cs : List (List ImageData),
      (cs.map (ocr_batch_worker ra threshold)).flatten =
        ocr_batch_worker ra threshold cs.flatten := by
  intro cs
  induction cs with
  | nil => cases ra <;> simp [ocr_batch_worker]
  | cons c cs ih => simp [ih, worker_append]

theorem toBatchesAux_flatten {α : Type} (k : Nat) (hk : 0 < k) :
    ∀ fuel (l : List α), l.length ≤ fuel → (toBatchesAux fuel k l).flatten = l := by
  intro fuel
  induction fuel with
  | zero =>
    intro l hl
    rw [Nat.le_zero, List.length_eq_zero] at hl
    subst hl
    rfl
  | succ fuel ih =>
    intro l hl
    match l with
    | [] => rfl
    | x :: xs =>
      have hdrop : ((x :: xs).drop k).length ≤ fuel := by
        simp only [List.length_drop, List.length_cons]
        simp only [List.length_cons] at hl
        omega
      simp [toBatchesAux, ih _ hdrop]

theorem toBatches_flatten {α : Type} (k : Nat) (hk : 0 < k) (l : List α) :
    (toBatches k l).flatten = l :=
  toBatchesAux_flatten k hk l.length l le_rfl

/-- Splitting into sub-batches and concatenating the per-batch worker outputs
equals running the worker over all images at once. -/
theorem worker_all_results (ra : Bool) (threshold : ℚ) (k : Nat) (hk : 0 < k)
    (images : List ImageData) :
    ((toBatches k images).map (ocr_batch_worker ra threshold)).flatten =
      ocr_batch_worker ra threshold images := by
  rw [flatten_map_worker, toBatches_flatten k hk]

theorem apply_postprocessing_nil (cfg : OCRConfig) (name : String) :
    apply_postprocessing cfg [] name = [] := by
  unfold apply_postprocessing
  split_ifs <;> simp [merge_adjacent_text, remove_duplicate_text, removeDupLoop]

theorem postprocess_batch_nil (cfg : OCRConfig) : postprocess_batch cfg [] = [] := by
  unfold postprocess_batch
  induction cfg.postprocessing with
  | nil => rfl
  | cons n ns ih => rw [List.foldl_cons, apply_postprocessing_nil]; exact ih

/-- Every result emitted by the worker passed the confidence threshold. -/
theorem worker_conf_ge (ra : Bool) (threshold : ℚ) (images : List ImageData) :
    ∀ r ∈ ocr_batch_worker ra threshold images, threshold ≤ r.confidence := by
  intro r hr
  cases ra with
  | false => simp [ocr_batch_worker] at hr
  | true =>
    simp only [ocr_batch_worker, if_pos, List.mem_flatten, List.mem_map] at hr
    obtain ⟨l, ⟨img, _, himg⟩, hrl⟩ := hr
    subst himg
    rw [List.mem_filterMap] at hrl
    obtain ⟨rd, _, hrd⟩ := hrl
    by_cases hc : threshold ≤ rd.confidence
    · rw [if_pos hc] at hrd
      cases hrd
      exact hc
    · rw [if_neg hc] at hrd
      cases hrd

/-- Normal form of `process_image_batch` on a non-empty image list. -/
theorem process_image_batch_eq (cfg : OCRConfig) (ra : Bool) (device : String)
    (k : Nat) (hk : 0 < k) (images : List ImageData) (himg : images ≠ []) :
    process_image_batch cfg ra device k images =
      { results := postprocess_batch cfg (ocr_batch_worker ra cfg.confidence_threshold images)
        batch_size := images.length
        total_processing_time := 0
        average_confidence :=
          if postprocess_batch cfg (ocr_batch_worker ra cfg.confidence_threshold images) = []
          then 0
          else ((ocr_batch_worker ra cfg.confidence_threshold images).map (·.confidence)).sum /
            ((postprocess_batch cfg
              (ocr_batch_worker ra cfg.confidence_threshold images)).length : ℚ)
        device_used := device } := by
  simp only [process_image_batch, if_neg himg, worker_all_results ra _ k hk]


/-- C4 counterexample: with reader construction failed and a non-empty input,
`process_image_batch` does NOT fail — it returns a normal successful
`BatchOCRResult` with an empty item list, so nothing surfaces to the calling
scheduler and its retry policy is not triggered. -/
theorem readerFailure_returns_ok_empty :
    process_image_batch_call defaultConfig false "cpu" 8
        [[⟨[(0, 0), (10, 0), (10, 10), (0, 10)], "hello", 9/10⟩]] =
      Except.ok ⟨[], 1, 0, 0, "cpu"⟩ := rfl

/-- C4 (amended): a failure constructing the model reader is swallowed inside
`process_image_batch`: for every non-empty input list the call still returns
normally (`Except.ok`), with zero items and `average_confidence = 0`, so the
calling scheduler observes a success and its retry policy is never invoked. -/
theorem readerFailure_swallowed (cfg : OCRConfig) (device : String) (k : Nat)
    (images : List ImageData) (himg : images ≠ []) :
    process_image_batch_call cfg false device k images =
      Except.ok ⟨[], images.length, 0, 0, device⟩ := by
  have hall : ∀ cs : List (List ImageData),
      (cs.map (ocr_batch_worker false cfg.confidence_threshold)).flatten = [] := by
    intro cs
    rw [flatten_map_worker]
    rfl
  simp only [process_image_batch_call, process_image_batch, if_neg himg, hall,
    postprocess_batch_nil, List.map_nil, List.sum_nil]
  simp

/-- Witness for `readerFailure_swallowed` at a concrete non-empty input. -/
theorem readerFailure_swallowed_witness :
    process_image_batch_call defaultConfig false "cuda:0" 4 [[], []] =
      Except.ok ⟨[], 2, 0, 0, "cuda:0"⟩ :=
  readerFailure_swallowed defaultConfig "cuda:0" 4 [[], []] (by decide)

/-- The two-reading image used to refute C5: the readings are adjacent, so
postprocessing merges them into a single item of confidence `7/10`, while the
stored average is computed from the pre-merge confidences `3/5` and `4/5`. -/
def c5exImages : List ImageData :=
  [[⟨[(0, 10), (10, 10), (10, 20), (0, 20)], "a", 3/5⟩,
    ⟨[(10, 25), (20, 25), (20, 35), (10, 35)], "b", 4/5⟩]]

theorem c5ex_returned_confidences :
    ((process_image_batch defaultConfig true "cpu" 8 c5exImages).results.map
      (·.confidence)) = [7/10] := by
  norm_num [process_image_batch, defaultConfig, toBatches, toBatchesAux, ocr_batch_worker,
    convertReading, listMin, listMax, postprocess_batch, apply_postprocessing,
    merge_adjacent_text, mergeLoop, emitGroup, merge_text_group, Adjacent, c5exImages,
    List.filterMap_cons, List.filter_cons,
    (show "merge_text" ≠ "filter_confidence" by decide)]

theorem c5ex_average :
    (process_image_batch defaultConfig true "cpu" 8 c5exImages).average_confidence
      = 7/5 := by
  norm_num [process_image_batch, defaultConfig, toBatches, toBatchesAux, ocr_batch_worker,
    convertReading, listMin, listMax, postprocess_batch, apply_postprocessing,
    merge_adjacent_text, mergeLoop, emitGroup, merge_text_group, Adjacent, c5exImages,
    List.filterMap_cons, List.filter_cons,
    (show "merge_text" ≠ "filter_confidence" by decide)]

/-- C5 counterexample: two adjacent readings (confidences `3/5`, `4/5`) are
merged by postprocessing into one returned item of confidence `7/10`, but the
stored `average_confidence` is `(3/5 + 4/5) / 1 = 7/5` — not the arithmetic
mean of the items actually contained in the returned result list. -/
theorem averageConfidence_not_mean_of_returned :
    (process_image_batch defaultConfig true "cpu" 8 c5exImages).average_confidence ≠
      ((process_image_batch defaultConfig true "cpu" 8 c5exImages).results.map
          (·.confidence)).sum /
        ((process_image_batch defaultConfig true "cpu" 8 c5exImages).results.length : ℚ) := by
  have hlen : (process_image_batch defaultConfig true "cpu" 8 c5exImages).results.length = 1 := by
    have := congrArg List.length c5ex_returned_confidences
    simpa using this
  rw [c5ex_average, c5ex_returned_confidences, hlen]
  norm_num

/-- C5 (amended): for a non-empty returned result list, `average_confidence`
is the sum of the confidences of the PRE-postprocessing (threshold-passing)
results divided by the number of POST-postprocessing results; it coincides
with the arithmetic mean of the returned items whenever the postprocessing
pipeline is just the confidence filter (no `merge_text`). -/
theorem averageConfidence_presum_over_final_count (cfg : OCRConfig) (ra : Bool)
    (device : String) (k : Nat) (images : List ImageData) (hk : 0 < k)
    (hres : (process_image_batch cfg ra device k images).results ≠ []) :
    (process_image_batch cfg ra device k images).average_confidence =
      ((ocr_batch_worker ra cfg.confidence_threshold images).map (·.confidence)).sum /
        ((process_image_batch cfg ra device k images).results.length : ℚ) ∧
    (cfg.postprocessing = ["filter_confidence"] →
      (process_image_batch cfg ra device k images).average_confidence =
        ((process_image_batch cfg ra device k images).results.map (·.confidence)).sum /
          ((process_image_batch cfg ra device k images).results.length : ℚ)) := by
  have himg : images ≠ [] := by
    intro h
    subst h
    simp [process_image_batch] at hres
  rw [process_image_batch_eq cfg ra device k hk images himg] at hres ⊢
  simp only at hres ⊢
  constructor
  · rw [if_neg hres]
  · intro hpost
    have hfinal : postprocess_batch cfg (ocr_batch_worker ra cfg.confidence_threshold images) =
        ocr_batch_worker ra cfg.confidence_threshold images := by
      unfold postprocess_batch
      rw [hpost]
      simp only [List.foldl_cons, List.foldl_nil]
      unfold apply_postprocessing
      rw [if_pos rfl]
      exact List.filter_eq_self.mpr
        (fun r hr => decide_eq_true (worker_conf_ge ra cfg.confidence_threshold images r hr))
    rw [if_neg hres, hfinal]

/-- Witness for `averageConfidence_presum_over_final_count` at a concrete
input. -/
theorem averageConfidence_presum_witness :
    (process_image_batch defaultConfig true "cpu" 8 c5exImages).average_confidence =
      ((ocr_batch_worker true defaultConfig.confidence_threshold c5exImages).map
          (·.confidence)).sum /
        ((process_image_batch defaultConfig true "cpu" 8 c5exImages).results.length : ℚ) :=
  (averageConfidence_presum_over_final_count defaultConfig true "cpu" 8 c5exImages
    (by decide)
    (by
      intro h
      have hmap := congrArg (List.map (·.confidence)) h
      rw [c5ex_returned_confidences] at hmap
      simp at hmap)).1

/-! ### Resource manager: `_calculate_optimal_batch_size` (`gpu_manager.py`) -/

/-- `GPUMemoryPool` from `gpu_manager.py` (lines 40-47); memory amounts in MB. -/
structure GPUMemoryPool where
  device_id : Int
  total_memory : Int
  allocated_memory : Int
  cached_memory : Int
  reserved_memory : Int
deriving DecidableEq, Repr

/-- `GPUManager._calculate_optimal_batch_size` (lines 191-228).  The memory
pools dict is an association list keyed by device id; `torchAvailable` models
the `TORCH_AVAILABLE` module flag.  `int(available * 0.85)` is truncation of
the exact product, `Int.tdiv (available * 85) 100`; Python `//` is `Int.fdiv`. -/
def calculate_optimal_batch_size (torchAvailable : Bool)
    (memory_pools : List (Int × GPUMemoryPool)) (model_type : String)
    (input_size : List Int) (device_id : Int) : Int :=
  if !torchAvailable then 1
  else
    match memory_pools.find? (fun p => p.1 == device_id) with
    | none => 1
    | some p =>
      let pool := p.2
      let available_memory := pool.total_memory - pool.reserved_memory
      let max_usable_memory := Int.tdiv (available_memory * 85) 100
      let max_batch_size :=
        if model_type = "easyocr" then
          let base_memory : Int := 500
          let per_image_memory : Int :=
            if 2 ≤ input_size.length then
              max 50 (Int.fdiv (input_size.getD 0 0 * input_size.getD 1 0) 10000)
            else 50
          max 1 (Int.fdiv (max_usable_memory - base_memory) per_image_memory)
        else
          max 1 (Int.fdiv max_usable_memory 100)
      max (min max_batch_size 32) 1

/-- The batch-size formula as the specification words it (`floor(usableBudget /
perItemEstimate)` clamped to `[1, 32]`, with `usableBudget = (total - reserved)`
capped at 85% and the per-item estimate a function of workload kind and input
shape) — with no base-model reservation.  Stated for comparison with the
source's `calculate_optimal_batch_size`. -/
def spec_optimal_batch_size (torchAvailable : Bool)
    (memory_pools : List (Int × GPUMemoryPool)) (model_type : String)
    (input_size : List Int) (device_id : Int) : Int :=
  if !torchAvailable then 1
  else
    match memory_pools.find? (fun p => p.1 == device_id) with
    | none => 1
    | some p =>
      let usableBudget := Int.tdiv ((p.2.total_memory - p.2.reserved_memory) * 85) 100
      let perItemEstimate : Int :=
        if model_type = "easyocr" then
          if 2 ≤ input_size.length then
            max 50 (Int.fdiv (input_size.getD 0 0 * input_size.getD 1 0) 10000)
          else 50
        else 100
      min 32 (max 1 (Int.fdiv usableBudget perItemEstimate))

/-- The formula the source actually computes, in clamped normal form: for
`easyocr` a 500 MB base-model reservation is subtracted from the usable budget
before dividing by the per-item estimate; for other workload kinds the usable
budget is divided by 100. -/
def amended_optimal_batch_size (torchAvailable : Bool)
    (memory_pools : List (Int × GPUMemoryPool)) (model_type : String)
    (input_size : List Int) (device_id : Int) : Int :=
  if !torchAvailable then 1
  else
    match memory_pools.find? (fun p => p.1 == device_id) with
    | none => 1
    | some p =>
      let usableBudget := Int.tdiv ((p.2.total_memory - p.2.reserved_memory) * 85) 100
      if model_type = "easyocr" then
        let perItemEstimate : Int :=
          if 2 ≤ input_size.length then
            max 50 (Int.fdiv (input_size.getD 0 0 * input_size.getD 1 0) 10000)
          else 50
        min 32 (max 1 (Int.fdiv (usableBudget - 500) perItemEstimate))
      else
        min 32 (max 1 (Int.fdiv usableBudget 100))

/-- The example pool used to refute C6: 2000 MB total, 200 MB reserved, so the
85%-capped usable budget is 1530 MB; a 640x480 easyocr workload has per-item
estimate `max 50 (307200 // 10000) = 50`. -/
def c6pool : GPUMemoryPool := ⟨0, 2000, 0, 0, 200⟩

/-- C6 counterexample: the source computes `max 1 ((1530 - 500) // 50) = 20`,
while the spec's formula `floor(1530 / 50) = 30` (clamped) gives 30 — the code
subtracts a 500 MB base-model reservation that the spec formula omits. -/
theorem optimalBatchSize_ne_spec_formula :
    calculate_optimal_batch_size true [(0, c6pool)] "easyocr" [640, 480] 0 = 20 ∧
    spec_optimal_batch_size true [(0, c6pool)] "easyocr" [640, 480] 0 = 30 ∧
    calculate_optimal_batch_size true [(0, c6pool)] "easyocr" [640, 480] 0 ≠
      spec_optimal_batch_size true [(0, c6pool)] "easyocr" [640, 480] 0 := by
  refine ⟨by decide, by decide, by decide⟩

/-- C6 (amended): for every workload kind, input shape and device,
`_calculate_optimal_batch_size` returns the clamped-to-`[1, 32]` quotient of
the 85%-capped usable budget by the per-item estimate — with the usable budget
first reduced by a 500 MB base-model reservation for `easyocr`, and with a flat
100 MB per-item estimate for other workload kinds; the result always lies in
`[1, 32]`. -/
theorem optimalBatchSize_base_adjusted (torchAvailable : Bool)
    (memory_pools : List (Int × GPUMemoryPool)) (model_type : String)
    (input_size : List Int) (device_id : Int) :
    calculate_optimal_batch_size torchAvailable memory_pools model_type input_size device_id =
      amended_optimal_batch_size torchAvailable memory_pools model_type input_size device_id ∧
    1 ≤ calculate_optimal_batch_size torchAvailable memory_pools model_type
        input_size device_id ∧
    calculate_optimal_batch_size torchAvailable memory_pools model_type
        input_size device_id ≤ 32 := by
  unfold calculate_optimal_batch_size amended_optimal_batch_size
  cases torchAvailable with
  | false => simp
  | true =>
    simp only [Bool.not_true, Bool.false_eq_true, if_false]
    cases hfind : memory_pools.find? (fun p => p.1 == device_id) with
    | none => simp
    | some p =>
      by_cases hm : model_type = "easyocr" <;> simp only [hm, if_pos, if_neg, if_true] <;>
        split_ifs <;> refine ⟨by omega, by omega, by omega⟩

/-! ### Job scheduler (`ocr_scheduler.py`): data model and priority order -/

/-- `JobPriority` (lines 19-24). -/
inductive JobPriority
  | low
  | normal
  | high
  | urgent
deriving DecidableEq, Repr

/-- The enum values `LOW = 1 … URGENT = 4`. -/
def JobPriority.value : JobPriority → Nat
  | .low => 1
  | .normal => 2
  | .high => 3
  | .urgent => 4

/-- `JobStatus` (lines 26-33). -/
inductive JobStatus
  | pending
  | queued
  | processing
  | completed
  | failed
  | cancelled
deriving DecidableEq, Repr

/-- `OCRJob` (lines 35-50).  `callback` (an external effect) and `metadata`
(opaque payload) are not modelled; timestamps are abstract `Nat` instants. -/
structure OCRJob where
  job_id : String
  images : List ImageData
  priority : JobPriority
  status : JobStatus
  created_at : Nat
  started_at : Option Nat := none
  completed_at : Option Nat := none
  result : Option BatchOCRResult := none
  error : Option String := none
  retry_count : Nat := 0
  max_retries : Nat := 3
deriving DecidableEq, Repr

/-- `OCRJob.__lt__` (lines 52-58): larger `priority.value` first; within equal
priority, earlier `created_at` first. -/
def OCRJob.lt (a b : OCRJob) : Bool :=
  if a.priority.value ≠ b.priority.value then
    decide (a.priority.value > b.priority.value)
  else decide (a.created_at < b.created_at)

theorem OCRJob.lt_iff (a b : OCRJob) : OCRJob.lt a b = true ↔
    (b.priority.value < a.priority.value ∨
      (a.priority.value = b.priority.value ∧ a.created_at < b.created_at)) := by
  unfold OCRJob.lt
  split_ifs with h <;> simp <;> omega

theorem OCRJob.lt_trans {a b c : OCRJob} (h1 : OCRJob.lt a b = true)
    (h2 : OCRJob.lt b c = true) : OCRJob.lt a c = true := by
  rw [OCRJob.lt_iff] at h1 h2 ⊢
  omega

theorem OCRJob.lt_not_of_not {a b c : OCRJob} (h1 : OCRJob.lt a b = false)
    (h2 : OCRJob.lt b c = false) : OCRJob.lt a c = false := by
  rw [← Bool.not_eq_true] at h1 h2 ⊢
  rw [OCRJob.lt_iff] at h1 h2 ⊢
  omega

/-- `heapq.heappop` (line 330 of `ocr_scheduler.py`) is modelled by its
documented contract: remove and return a smallest queue element under
`OCRJob.__lt__`.  The heap's array layout is abstracted to the multiset of
queued jobs; among tied minima the leftmost is taken. -/
def selectMin : OCRJob → List OCRJob → OCRJob × List OCRJob
  | m, [] => (m, [])
  | m, x :: xs =>
      if OCRJob.lt x m then
        let r := selectMin x xs
        (r.1, m :: r.2)
      else
        let r := selectMin m xs
        (r.1, x :: r.2)

theorem selectMin_length (m : OCRJob) (xs : List OCRJob) :
    (selectMin m xs).2.length = xs.length := by
  induction xs generalizing m with
  | nil => rfl
  | cons x xs ih =>
    unfold selectMin
    split_ifs <;> simp [ih]

theorem selectMin_perm (m : OCRJob) (xs : List OCRJob) :
    List.Perm ((selectMin m xs).1 :: (selectMin m xs).2) (m :: xs) := by
  induction xs generalizing m with
  | nil => rfl
  | cons x xs ih =>
    unfold selectMin
    split_ifs with h <;> dsimp only
    · exact (List.Perm.swap m (selectMin x xs).1 (selectMin x xs).2).trans ((ih x).cons m)
    · exact (List.Perm.swap x (selectMin m xs).1 (selectMin m xs).2).trans
        (((ih m).cons x).trans (List.Perm.swap m x xs))

/-- The popped element is minimal: no queue element is `__lt__`-below it. -/
theorem OCRJob.lt_irrefl (a : OCRJob) : OCRJob.lt a a = false := by
  rw [← Bool.not_eq_true, OCRJob.lt_iff]
  omega

theorem selectMin_min (m : OCRJob) (xs : List OCRJob) :
    ∀ y ∈ m :: xs, OCRJob.lt y (selectMin m xs).1 = false := by
  induction xs generalizing m with
  | nil =>
    intro y hy
    simp at hy
    subst hy
    exact OCRJob.lt_irrefl y
  | cons x xs ih =>
    intro y hy
    unfold selectMin
    split_ifs with h <;> dsimp only
    · rcases List.mem_cons.mp hy with hy | hy
      · subst hy
        cases hc : OCRJob.lt y (selectMin x xs).1 with
        | false => rfl
        | true =>
          have hx : OCRJob.lt x (selectMin x xs).1 = false :=
            ih x x (List.mem_cons_self x xs)
          have := OCRJob.lt_trans h hc
          rw [this] at hx
          cases hx
      · exact ih x y hy
    · have hfalse : OCRJob.lt x m = false := by
        cases hxm : OCRJob.lt x m with
        | false => rfl
        | true => exact absurd hxm h
      rcases List.mem_cons.mp hy with hy | hy
      · subst hy
        exact ih y y (List.mem_cons_self y xs)
      · rcases List.mem_cons.mp hy with hy | hy
        · subst hy
          have hm : OCRJob.lt m (selectMin m xs).1 = false :=
            ih m m (List.mem_cons_self m xs)
          exact OCRJob.lt_not_of_not hfalse hm
        · exact ih m y (List.mem_cons.mpr (Or.inr hy))

/-- The scheduler loop's dispatch order from a fixed queue: repeatedly pop the
heap minimum (`_get_next_job`, lines 323-338) until the queue is drained. -/
def dispatchSeqAux : Nat → List OCRJob → List OCRJob
  | 0, _ => []
  | _ + 1, [] => []
  | fuel + 1, q0 :: qs =>
      let r := selectMin q0 qs
      r.1 :: dispatchSeqAux fuel r.2

def dispatchSeq (q : List OCRJob) : List OCRJob := dispatchSeqAux q.length q

theorem dispatchSeqAux_perm :
    ∀ fuel (q : List OCRJob), q.length ≤ fuel → List.Perm (dispatchSeqAux fuel q) q := by
  intro fuel
  induction fuel with
  | zero =>
    intro q hq
    rw [Nat.le_zero, List.length_eq_zero] at hq
    subst hq
    rfl
  | succ fuel ih =>
    intro q hq
    match q with
    | [] => rfl
    | q0 :: qs =>
      have hlen : (selectMin q0 qs).2.length ≤ fuel := by
        rw [selectMin_length]
        simpa using hq
      exact ((ih _ hlen).cons (selectMin q0 qs).1).trans (selectMin_perm q0 qs)

theorem dispatchSeq_perm (q : List OCRJob) : List.Perm (dispatchSeq q) q :=
  dispatchSeqAux_perm q.length q le_rfl

theorem dispatchSeqAux_pairwise :
    ∀ fuel (q : List OCRJob), q.length ≤ fuel →
      List.Pairwise (fun a b => OCRJob.lt b a = false) (dispatchSeqAux fuel q) := by
  intro fuel
  induction fuel with
  | zero => intro q hq; simp [dispatchSeqAux]
  | succ fuel ih =>
    intro q hq
    match q with
    | [] => simp [dispatchSeqAux]
    | q0 :: qs =>
      have hlen : (selectMin q0 qs).2.length ≤ fuel := by
        rw [selectMin_length]
        simpa using hq
      refine List.pairwise_cons.mpr ⟨?_, ih _ hlen⟩
      intro b hb
      have hb2 : b ∈ (selectMin q0 qs).2 := (dispatchSeqAux_perm fuel _ hlen).mem_iff.mp hb
      have hbq : b ∈ q0 :: qs :=
        (selectMin_perm q0 qs).mem_iff.mp (List.mem_cons.mpr (Or.inr hb2))
      exact selectMin_min q0 qs b hbq

theorem dispatchSeq_pairwise (q : List OCRJob) :
    List.Pairwise (fun a b => OCRJob.lt b a = false) (dispatchSeq q) :=
  dispatchSeqAux_pairwise q.length q le_rfl

/-- C2: for jobs `a`, `b` both in the queue, if `a` has strictly higher
priority — or equal priority and earlier `created_at` — then `a` is dispatched
strictly before `b` (the heap order is priority descending, then `created_at`
ascending). -/
theorem dispatch_respects_priority (q : List OCRJob) (a b : OCRJob)
    (ha : a ∈ q) (hb : b ∈ q) (hne : a ≠ b)
    (hord : b.priority.value < a.priority.value ∨
      (a.priority.value = b.priority.value ∧ a.created_at < b.created_at)) :
    (dispatchSeq q).indexOf a < (dispatchSeq q).indexOf b := by
  have hlt : OCRJob.lt a b = true := (OCRJob.lt_iff a b).mpr hord
  have hA : a ∈ dispatchSeq q := (dispatchSeq_perm q).mem_iff.mpr ha
  have hB : b ∈ dispatchSeq q := (dispatchSeq_perm q).mem_iff.mpr hb
  have hia : (dispatchSeq q).indexOf a < (dispatchSeq q).length :=
    List.indexOf_lt_length.mpr hA
  have hib : (dispatchSeq q).indexOf b < (dispatchSeq q).length :=
    List.indexOf_lt_length.mpr hB
  by_contra hcon
  push_neg at hcon
  have hneidx : (dispatchSeq q).indexOf b ≠ (dispatchSeq q).indexOf a := by
    intro heq
    exact hne ((List.indexOf_inj hB hA).mp heq).symm
  have hblta : (dispatchSeq q).indexOf b < (dispatchSeq q).indexOf a :=
    lt_of_le_of_ne hcon hneidx
  have hpair := List.pairwise_iff_getElem.mp (dispatchSeq_pairwise q)
    _ _ hib hia hblta
  rw [List.getElem_indexOf hia, List.getElem_indexOf hib] at hpair
  rw [hlt] at hpair
  cases hpair

/-- `submit_job` builds this job record (lines 190-198): fresh id, `Pending`,
`retry_count = 0`, `max_retries = 3`. -/
def mkJob (job_id : String) (images : List ImageData) (priority : JobPriority)
    (t : Nat) : OCRJob :=
  { job_id := job_id, images := images, priority := priority,
    status := .pending, created_at := t }

def mkNormalJob : OCRJob := mkJob "job-normal" [] .normal 5
def mkUrgentJob : OCRJob := mkJob "job-urgent" [] .urgent 9
def mkEarlyJob : OCRJob := mkJob "job-early" [] .normal 3
def mkLateJob : OCRJob := mkJob "job-late" [] .normal 7

/-- Witness: a two-job queue where the urgent job (submitted later) is
dispatched before the normal one, and a same-priority pair dispatched in
`created_at` order. -/
theorem dispatch_respects_priority_witness :
    ((dispatchSeq [mkNormalJob, mkUrgentJob]).indexOf mkUrgentJob <
      (dispatchSeq [mkNormalJob, mkUrgentJob]).indexOf mkNormalJob) ∧
    ((dispatchSeq [mkLateJob, mkEarlyJob]).indexOf mkEarlyJob <
      (dispatchSeq [mkLateJob, mkEarlyJob]).indexOf mkLateJob) :=
  ⟨dispatch_respects_priority _ mkUrgentJob mkNormalJob (by decide) (by decide)
      (by decide) (by decide),
    dispatch_respects_priority _ mkEarlyJob mkLateJob (by decide) (by decide)
      (by decide) (by decide)⟩

/-! ### Job scheduler: state machine over the four job stores -/

/-- The scheduler's mutable stores (`__init__`, lines 96-100): heap-backed
queue, in-flight map, completed and failed stores.  The dict-valued stores are
modelled as lists of jobs (keyed by `job_id`). -/
structure SchedState where
  job_queue : List OCRJob
  processing_jobs : List OCRJob
  completed_jobs : List OCRJob
  failed_jobs : List OCRJob
deriving DecidableEq, Repr

def initState : SchedState := ⟨[], [], [], []⟩

def allJobs (s : SchedState) : List OCRJob :=
  s.job_queue ++ s.processing_jobs ++ s.completed_jobs ++ s.failed_jobs

def allIds (s : SchedState) : List String := (allJobs s).map (·.job_id)

/-- `submit_job` (lines 184-210): build a `Pending` job and heap-push it.
There is NO validation of the input list — an empty `images` list is enqueued
like any other.  `heappush` is modelled by its effect on the queue multiset. -/
def submit_job (s : SchedState) (images : List ImageData) (priority : JobPriority)
    (job_id : String) (t : Nat) : SchedState :=
  { s with job_queue := s.job_queue ++ [mkJob job_id images priority t] }

/-- `_get_next_job` followed by the start of `_process_job`
(lines 323-349): pop the heap minimum, mark it `Processing`, stamp
`started_at`, insert it into the in-flight map.  (The transient `Queued`
status assigned in `_get_next_job` is immediately overwritten at line 348 and
is not separately modelled.) -/
def dispatch_next (s : SchedState) (t : Nat) : SchedState :=
  match s.job_queue with
  | [] => s
  | q0 :: qs =>
      let r := selectMin q0 qs
      { s with
        job_queue := r.2
        processing_jobs := s.processing_jobs ++
          [{ r.1 with status := .processing, started_at := some t }] }

/-- Successful completion in `_process_job` (lines 353-381): store the result,
mark `Completed`, stamp `completed_at`, move from the in-flight map to the
completed store. -/
def complete_job (s : SchedState) (j : OCRJob) (res : BatchOCRResult) (t : Nat) :
    SchedState :=
  { s with
    processing_jobs := s.processing_jobs.filter (fun x => x.job_id != j.job_id)
    completed_jobs := s.completed_jobs ++
      [{ j with result := some res, status := .completed, completed_at := some t }] }

/-- `_handle_job_failure`, per-job effect (lines 389-413): record the error,
increment `retry_count`; re-queue as `Pending` while `retry_count <=
max_retries`, otherwise mark `Failed` and stamp `completed_at`. -/
def apply_failure (j : OCRJob) (e : String) (t : Nat) : OCRJob :=
  let j1 := { j with error := some e, retry_count := j.retry_count + 1 }
  if j1.retry_count ≤ j1.max_retries then { j1 with status := .pending }
  else { j1 with status := .failed, completed_at := some t }

/-- `_handle_job_failure`, store effect (lines 389-419): the failed job leaves
the in-flight map and is either heap-pushed back onto the queue (retry) or
inserted into the failed store (exhausted). -/
def fail_job (s : SchedState) (j : OCRJob) (e : String) (t : Nat) : SchedState :=
  let j1 := apply_failure j e t
  let s1 := { s with
    processing_jobs := s.processing_jobs.filter (fun x => x.job_id != j.job_id) }
  if j1.retry_count ≤ j1.max_retries then
    { s1 with job_queue := s1.job_queue ++ [j1] }
  else
    { s1 with failed_jobs := s1.failed_jobs ++ [j1] }

/-- `cancel_job` (lines 269-294): remove the first queued job with the id and
return `True`; otherwise — in-flight, terminal or unknown id — return `False`
and leave every store unchanged.  (`heapify` after the removal permutes the
heap array only and is invisible at the multiset level; the `CANCELLED`
status written to the popped job object at line 276 leaves with it.) -/
def cancel_job (s : SchedState) (job_id : String) : Bool × SchedState :=
  if (s.job_queue.find? (fun j => j.job_id == job_id)).isSome then
    (true, { s with job_queue := s.job_queue.eraseP (fun j => j.job_id == job_id) })
  else (false, s)

/-- `get_job_status` (lines 212-241): search the in-flight map, the completed
store, the failed store, then the queue, returning `none` when the id is in no
store.  (Python renders the job as a dict via `_job_to_dict`; the job record
itself is returned here.) -/
def get_job_status (s : SchedState) (job_id : String) : Option OCRJob :=
  match s.processing_jobs.find? (fun j => j.job_id == job_id) with
  | some j => some j
  | none =>
    match s.completed_jobs.find? (fun j => j.job_id == job_id) with
    | some j => some j
    | none =>
      match s.failed_jobs.find? (fun j => j.job_id == job_id) with
      | some j => some j
      | none => s.job_queue.find? (fun j => j.job_id == job_id)

/-- One scheduler transition: submission with a fresh uuid, dispatch of the
queue minimum, completion or failure of an in-flight job, or a cancel call. -/
inductive SchedStep : SchedState → SchedState → Prop where
  | submit (s : SchedState) (images : List ImageData) (priority : JobPriority)
      (job_id : String) (t : Nat) (hfresh : ∀ j ∈ allJobs s, j.job_id ≠ job_id) :
      SchedStep s (submit_job s images priority job_id t)
  | dispatch (s : SchedState) (t : Nat) (hne : s.job_queue ≠ []) :
      SchedStep s (dispatch_next s t)
  | complete (s : SchedState) (j : OCRJob) (res : BatchOCRResult) (t : Nat)
      (hj : j ∈ s.processing_jobs) : SchedStep s (complete_job s j res t)
  | fail (s : SchedState) (j : OCRJob) (e : String) (t : Nat)
      (hj : j ∈ s.processing_jobs) : SchedStep s (fail_job s j e t)
  | cancel (s : SchedState) (job_id : String) :
      SchedStep s (cancel_job s job_id).2

/-- Scheduler states reachable from the initial (empty) state. -/
def Reach (s : SchedState) : Prop := Relation.ReflTransGen SchedStep initState s

/-! ### Scheduler invariants -/

/-- Per-store status and retry bookkeeping maintained by the scheduler:
queued jobs are `Pending` with retries left, in-flight jobs are `Processing`
with retries left, and failed jobs have exhausted exactly
`max_retries + 1` attempts with the error recorded. -/
def SchedInv (s : SchedState) : Prop :=
  (∀ j ∈ s.job_queue, j.status = .pending ∧ j.retry_count ≤ j.max_retries) ∧
  (∀ j ∈ s.processing_jobs, j.status = .processing ∧ j.retry_count ≤ j.max_retries) ∧
  (∀ j ∈ s.completed_jobs, j.status = .completed ∧ j.retry_count ≤ j.max_retries) ∧
  (∀ j ∈ s.failed_jobs,
    j.status = .failed ∧ j.retry_count = j.max_retries + 1 ∧ j.error ≠ none)

theorem inv_init : SchedInv initState := by
  refine ⟨?_, ?_, ?_, ?_⟩ <;> intro j hj <;> simp [initState] at hj

theorem inv_step {s s' : SchedState} (hstep : SchedStep s s') (hinv : SchedInv s) : SchedInv s' := by
  obtain ⟨hq, hp, hc, hf⟩ := hinv
  cases hstep with
  | submit images priority job_id t hfresh =>
    refine ⟨?_, hp, hc, hf⟩
    intro j hj
    rw [submit_job, List.mem_append] at hj
    rcases hj with hj | hj
    · exact hq j hj
    · simp at hj
      subst hj
      exact ⟨rfl, by simp [mkJob]⟩
  | dispatch t hne =>
    match hqeq : s.job_queue with
    | [] => exact absurd hqeq hne
    | q0 :: qs =>
      rw [dispatch_next, hqeq]
      dsimp only
      have hmem : ∀ y ∈ (selectMin q0 qs).1 :: (selectMin q0 qs).2, y ∈ s.job_queue := by
        intro y hy
        rw [hqeq]
        exact (selectMin_perm q0 qs).mem_iff.mp hy
      refine ⟨?_, ?_, hc, hf⟩
      · intro j hj
        exact hq j (hmem j (List.mem_cons.mpr (Or.inr hj)))
      · intro j hj
        rw [List.mem_append] at hj
        rcases hj with hj | hj
        · exact hp j hj
        · simp at hj
          subst hj
          exact ⟨rfl, (hq _ (hmem _ (List.mem_cons_self _ _))).2⟩
  | complete j res t hj =>
    refine ⟨hq, ?_, ?_, hf⟩
    · intro x hx
      exact hp x (List.mem_of_mem_filter hx)
    · intro x hx
      rw [complete_job] at hx
      dsimp only at hx
      rw [List.mem_append] at hx
      rcases hx with hx | hx
      · exact hc x hx
      · simp at hx
        subst hx
        exact ⟨rfl, (hp j hj).2⟩
  | fail j e t hj =>
    have hretry : j.retry_count ≤ j.max_retries := (hp j hj).2
    rw [fail_job]
    dsimp only
    by_cases hle : j.retry_count + 1 ≤ j.max_retries
    · have hval : apply_failure j e t = { j with error := some e, retry_count := j.retry_count + 1, status := JobStatus.pending } := by
        simp [apply_failure, hle]
      rw [hval, if_pos (by simpa using hle)]
      refine ⟨?_, ?_, hc, hf⟩
      · intro x hx
        rw [List.mem_append] at hx
        rcases hx with hx | hx
        · exact hq x hx
        · simp at hx
          subst hx
          exact ⟨rfl, by simpa using hle⟩
      · intro x hx
        exact hp x (List.mem_of_mem_filter hx)
    · have hval : apply_failure j e t = { j with error := some e, retry_count := j.retry_count + 1, status := JobStatus.failed, completed_at := some t } := by
        simp [apply_failure, hle]
      rw [hval, if_neg (by simpa using hle)]
      refine ⟨hq, ?_, hc, ?_⟩
      · intro x hx
        exact hp x (List.mem_of_mem_filter hx)
      · intro x hx
        rw [List.mem_append] at hx
        rcases hx with hx | hx
        · exact hf x hx
        · simp at hx
          subst hx
          refine ⟨rfl, ?_, by simp⟩
          simp only
          omega
  | cancel job_id =>
    rw [cancel_job]
    split_ifs with hfind
    · dsimp only
      refine ⟨?_, hp, hc, hf⟩
      intro x hx
      exact hq x (List.mem_of_mem_eraseP hx)
    · exact ⟨hq, hp, hc, hf⟩

theorem reach_inv {s : SchedState} (hs : Reach s) : SchedInv s := by
  induction hs with
  | refl => exact inv_init
  | tail _ hstep ih => exact inv_step hstep ih

/-- The uuid4-assigned job ids are pairwise distinct across all four stores. -/
def UniqueIds (s : SchedState) : Prop := (allIds s).Nodup

theorem uniqueIds_init : UniqueIds initState := by
  simp [UniqueIds, allIds, allJobs, initState]

theorem ids_filter_eq_erase {P : List OCRJob} {j : OCRJob} (hj : j ∈ P)
    (hnd : (P.map (·.job_id)).Nodup) :
    (P.filter (fun x => x.job_id != j.job_id)).map (·.job_id) =
      (P.map (·.job_id)).erase j.job_id := by
  rw [List.Nodup.erase_eq_filter hnd, List.filter_map]
  rfl

theorem permSnoc (a : String) (L : List String) : List.Perm (L ++ [a]) (a :: L) := by
  have hmid := @List.perm_middle String a L []
  simpa using hmid

theorem uniqueIds_step {s s' : SchedState} (hstep : SchedStep s s')
    (h : UniqueIds s) : UniqueIds s' := by
  cases hstep with
  | submit images priority job_id t hfresh =>
    have hperm : List.Perm (allIds (submit_job s images priority job_id t))
        (job_id :: allIds s) := by
      have hmid := @List.perm_middle String job_id (s.job_queue.map (·.job_id))
        ((s.processing_jobs.map (·.job_id)) ++ (s.completed_jobs.map (·.job_id)) ++
          (s.failed_jobs.map (·.job_id)))
      simpa [allIds, allJobs, submit_job, mkJob, List.append_assoc] using hmid
    rw [UniqueIds, hperm.nodup_iff, List.nodup_cons]
    refine ⟨?_, h⟩
    rw [allIds, List.mem_map]
    rintro ⟨j, hj, hid⟩
    exact hfresh j hj hid
  | dispatch t hne =>
    match hqeq : s.job_queue with
    | [] => exact absurd hqeq hne
    | q0 :: qs =>
      have hqperm : List.Perm ((q0 :: qs).map (·.job_id))
          ((selectMin q0 qs).1.job_id :: (selectMin q0 qs).2.map (·.job_id)) :=
        ((selectMin_perm q0 qs).map (·.job_id)).symm
      have hperm : List.Perm (allIds (dispatch_next s t)) (allIds s) := by
        rw [allIds, allIds, allJobs, allJobs, dispatch_next, hqeq]
        dsimp only
        simp only [List.map_append, List.map_cons, List.map_nil, List.append_assoc,
          List.cons_append, List.singleton_append, List.append_nil]
        refine List.Perm.trans (List.Perm.append_left _ List.perm_middle) ?_
        refine List.Perm.trans List.perm_middle ?_
        have h2 : List.Perm
            ((selectMin q0 qs).1.job_id :: (selectMin q0 qs).2.map (·.job_id))
            (q0.job_id :: qs.map (·.job_id)) := by simpa using hqperm.symm
        have h3 := h2.append_right (s.processing_jobs.map (·.job_id) ++
          (s.completed_jobs.map (·.job_id) ++ s.failed_jobs.map (·.job_id)))
        simpa using h3
      exact (hperm.nodup_iff).mpr h
  | complete j res t hj =>
    have hsplit : allIds s = s.job_queue.map (·.job_id) ++
        (s.processing_jobs.map (·.job_id) ++
          (s.completed_jobs.map (·.job_id) ++ s.failed_jobs.map (·.job_id))) := by
      simp [allIds, allJobs]
    have hndP : (s.processing_jobs.map (·.job_id)).Nodup := by
      have := h
      rw [UniqueIds, hsplit] at this
      exact ((this.of_append_right).of_append_left)
    have hmemP : j.job_id ∈ s.processing_jobs.map (·.job_id) :=
      List.mem_map_of_mem _ hj
    have hperm : List.Perm (allIds (complete_job s j res t)) (allIds s) := by
      rw [allIds, allIds, allJobs, allJobs, complete_job]
      dsimp only
      simp only [List.map_append, List.map_cons, List.map_nil, List.append_assoc,
        List.cons_append, List.singleton_append, List.append_nil]
      rw [ids_filter_eq_erase hj hndP]
      refine List.Perm.trans (List.Perm.append_left _
        (List.Perm.trans (List.Perm.append_left _ List.perm_middle) List.perm_middle)) ?_
      refine List.Perm.trans List.perm_middle ?_
      refine List.Perm.trans ?_ (List.Perm.append_left _
        ((List.perm_cons_erase hmemP).append_right _).symm)
      exact List.perm_middle.symm
    exact (hperm.nodup_iff).mpr h
  | fail j e t hj =>
    have hid : (apply_failure j e t).job_id = j.job_id := by
      rw [apply_failure]
      split_ifs <;> rfl
    have hsplit : allIds s = s.job_queue.map (·.job_id) ++
        (s.processing_jobs.map (·.job_id) ++
          (s.completed_jobs.map (·.job_id) ++ s.failed_jobs.map (·.job_id))) := by
      simp [allIds, allJobs]
    have hndP : (s.processing_jobs.map (·.job_id)).Nodup := by
      have hcopy := h
      rw [UniqueIds, hsplit] at hcopy
      exact ((hcopy.of_append_right).of_append_left)
    have hmemP : j.job_id ∈ s.processing_jobs.map (·.job_id) :=
      List.mem_map_of_mem _ hj
    have hperm : List.Perm (allIds (fail_job s j e t)) (allIds s) := by
      rw [allIds, allIds, allJobs, allJobs, fail_job]
      dsimp only
      split_ifs with hcond
      · dsimp only
        simp only [List.map_append, List.map_cons, List.map_nil, List.append_assoc,
          List.cons_append, List.singleton_append, List.append_nil, hid,
          ids_filter_eq_erase hj hndP]
        refine List.Perm.trans List.perm_middle ?_
        refine List.Perm.trans ?_ (List.Perm.append_left _
          (((List.perm_cons_erase hmemP).append_right _).symm))
        exact List.perm_middle.symm
      · dsimp only
        simp only [List.map_append, List.map_cons, List.map_nil, List.append_assoc,
          List.cons_append, List.singleton_append, List.append_nil, hid,
          ids_filter_eq_erase hj hndP]
        refine List.Perm.trans (List.Perm.append_left _ (List.Perm.append_left _
          (List.Perm.append_left _ (permSnoc j.job_id _)))) ?_
        refine List.Perm.trans (List.Perm.append_left _ (List.Perm.append_left _
          List.perm_middle)) ?_
        refine List.Perm.trans (List.Perm.append_left _ List.perm_middle) ?_
        refine List.Perm.trans List.perm_middle ?_
        refine List.Perm.trans ?_ (List.Perm.append_left _
          (((List.perm_cons_erase hmemP).append_right _).symm))
        exact List.perm_middle.symm
    exact (hperm.nodup_iff).mpr h
  | cancel job_id =>
    rw [cancel_job]
    split_ifs with hfind
    · dsimp only
      refine List.Sublist.nodup ?_ h
      simp only [allIds, allJobs, List.map_append]
      exact List.Sublist.append (List.Sublist.append (List.Sublist.append
        ((List.eraseP_sublist _).map _) (List.Sublist.refl _)) (List.Sublist.refl _))
        (List.Sublist.refl _)
    · exact h

theorem reach_uniqueIds {s : SchedState} (hs : Reach s) : UniqueIds s := by
  induction hs with
  | refl => exact uniqueIds_init
  | tail _ hstep ih => exact uniqueIds_step hstep ih

/-! ### C1: retry bookkeeping -/

/-- The single job of the C1 trace while in flight with `r` failures recorded
and the `r+1`-th attempt started at time `t`. -/
def exProcJob (r t : Nat) : OCRJob :=
  { job_id := "j1", images := [], priority := .normal, status := .processing,
    created_at := 0, started_at := some t,
    error := if r = 0 then none else some "boom", retry_count := r }

def exS1 : SchedState := submit_job initState [] .normal "j1" 0
def exS2 : SchedState := dispatch_next exS1 1
def exS3 : SchedState := fail_job exS2 (exProcJob 0 1) "boom" 11
def exS4 : SchedState := dispatch_next exS3 2
def exS5 : SchedState := fail_job exS4 (exProcJob 1 2) "boom" 12
def exS6 : SchedState := dispatch_next exS5 3
def exS7 : SchedState := fail_job exS6 (exProcJob 2 3) "boom" 13
def exS8 : SchedState := dispatch_next exS7 4
def exS9 : SchedState := fail_job exS8 (exProcJob 3 4) "boom" 14

/-- The job after its fourth consecutive failure: `retry_count = 4` with
`max_retries = 3`. -/
def exFailedJob : OCRJob :=
  { job_id := "j1", images := [], priority := .normal, status := .failed,
    created_at := 0, started_at := some 4, completed_at := some 14,
    error := some "boom", retry_count := 4 }

theorem reach_exS9 : Reach exS9 := by
  have h1 : SchedStep initState exS1 :=
    SchedStep.submit initState [] .normal "j1" 0 (by intro j hj; simp [allJobs, initState] at hj)
  have h2 : SchedStep exS1 exS2 := SchedStep.dispatch exS1 1 (by decide)
  have h3 : SchedStep exS2 exS3 := SchedStep.fail exS2 (exProcJob 0 1) "boom" 11 (by decide)
  have h4 : SchedStep exS3 exS4 := SchedStep.dispatch exS3 2 (by decide)
  have h5 : SchedStep exS4 exS5 := SchedStep.fail exS4 (exProcJob 1 2) "boom" 12 (by decide)
  have h6 : SchedStep exS5 exS6 := SchedStep.dispatch exS5 3 (by decide)
  have h7 : SchedStep exS6 exS7 := SchedStep.fail exS6 (exProcJob 2 3) "boom" 13 (by decide)
  have h8 : SchedStep exS7 exS8 := SchedStep.dispatch exS7 4 (by decide)
  have h9 : SchedStep exS8 exS9 := SchedStep.fail exS8 (exProcJob 3 4) "boom" 14 (by decide)
  exact ((((((((Relation.ReflTransGen.refl.tail h1).tail h2).tail h3).tail h4).tail
    h5).tail h6).tail h7).tail h8).tail h9

/-- C1 counterexample: in a reachable scheduler state, a job that failed on
all four attempts has `retry_count = 4 > 3 = max_retries` — `retry_count` can
exceed `max_retries`, because `_handle_job_failure` increments before
comparing with `<=`. -/
theorem retryCount_exceeds_maxRetries :
    Reach exS9 ∧ exFailedJob ∈ allJobs exS9 ∧
      exFailedJob.max_retries < exFailedJob.retry_count :=
  ⟨reach_exS9, by decide, by decide⟩

/-- C1 (amended): in every reachable scheduler state, every job satisfies
`retry_count <= max_retries + 1`; and a job whose retries are exhausted
(`retry_count > max_retries`) is in the `Failed` status with its error
recorded. -/
theorem retry_bounded (s : SchedState) (hs : Reach s) :
    ∀ j ∈ allJobs s, j.retry_count ≤ j.max_retries + 1 ∧
      (j.max_retries < j.retry_count → j.status = .failed ∧ j.error ≠ none) := by
  obtain ⟨hq, hp, hc, hf⟩ := reach_inv hs
  intro j hj
  rw [allJobs, List.append_assoc, List.append_assoc, List.mem_append] at hj
  rcases hj with hj | hj
  · have := hq j hj
    exact ⟨by omega, fun hgt => absurd this.2 (by omega)⟩
  · rw [List.mem_append] at hj
    rcases hj with hj | hj
    · have := hp j hj
      exact ⟨by omega, fun hgt => absurd this.2 (by omega)⟩
    · rw [List.mem_append] at hj
      rcases hj with hj | hj
      · have := hc j hj
        exact ⟨by omega, fun hgt => absurd this.2 (by omega)⟩
      · have := hf j hj
        exact ⟨by omega, fun _ => ⟨this.1, this.2.2⟩⟩

/-- Witness for `retry_bounded` at the concrete reachable state `exS9` and its
single (exhausted) job. -/
theorem retry_bounded_witness :
    exFailedJob.retry_count ≤ exFailedJob.max_retries + 1 ∧
      exFailedJob.status = .failed :=
  ⟨(retry_bounded exS9 reach_exS9 exFailedJob (by decide)).1,
    ((retry_bounded exS9 reach_exS9 exFailedJob (by decide)).2 (by decide)).1⟩

/-! ### C3: submission performs no input validation -/

/-- C3 counterexample: a submission with an EMPTY input list is not rejected —
the job enters the priority queue (in a reachable state). -/
theorem submit_accepts_empty_input :
    (submit_job initState [] .normal "j-empty" 7).job_queue =
      [mkJob "j-empty" [] .normal 7] ∧
    Reach (submit_job initState [] .normal "j-empty" 7) :=
  ⟨rfl, Relation.ReflTransGen.refl.tail
    (SchedStep.submit initState [] .normal "j-empty" 7
      (by intro j hj; simp [allJobs, initState] at hj))⟩

/-- C3 (amended): `submit_job` performs no input validation: for every input
list — the empty list included — submission succeeds synchronously and the job
enters the priority queue in `Pending` status with the given inputs. -/
theorem submit_no_validation (s : SchedState) (images : List ImageData)
    (priority : JobPriority) (job_id : String) (t : Nat)
    (hfresh : ∀ j ∈ allJobs s, j.job_id ≠ job_id) :
    SchedStep s (submit_job s images priority job_id t) ∧
    mkJob job_id images priority t ∈ (submit_job s images priority job_id t).job_queue ∧
    (mkJob job_id images priority t).status = .pending ∧
    (mkJob job_id images priority t).images = images :=
  ⟨SchedStep.submit s images priority job_id t hfresh,
    by simp [submit_job], rfl, rfl⟩

/-- Witness for `submit_no_validation`: an empty-input submission into the
empty scheduler. -/
theorem submit_no_validation_witness :
    SchedStep initState (submit_job initState [] .high "w3" 2) ∧
    mkJob "w3" [] .high 2 ∈ (submit_job initState [] .high "w3" 2).job_queue ∧
    (mkJob "w3" [] .high 2).status = .pending ∧
    (mkJob "w3" [] .high 2).images = [] :=
  submit_no_validation initState [] .high "w3" 2
    (by intro j hj; simp [allJobs, initState] at hj)

/-! ### C9/C10: cancellation semantics -/

theorem eraseP_key_not_mem (l : List OCRJob) (jid : String)
    (h : (l.map (·.job_id)).Nodup) :
    jid ∉ (l.eraseP (fun j => j.job_id == jid)).map (·.job_id) := by
  induction l with
  | nil => simp
  | cons x xs ih =>
    rw [List.map_cons, List.nodup_cons] at h
    by_cases hx : (x.job_id == jid) = true
    · simp only [List.eraseP_cons, hx, cond_true]
      have hxe : x.job_id = jid := by simpa using hx
      rw [← hxe]
      exact h.1
    · have hx' : (x.job_id == jid) = false := by simpa using hx
      simp only [List.eraseP_cons, hx', cond_false]
      rw [List.map_cons, List.mem_cons]
      push_neg
      refine ⟨?_, ih h.2⟩
      intro heq
      exact hx (by simp [heq])

/-- C9: `cancel_job` returns `true` exactly when the job is still waiting in
the queue; a successful cancel removes it from the queue (and from all future
dispatch, its id no longer being queued) and touches no other store; an
unsuccessful cancel — in-flight, terminal, or unknown id — returns `false`
and leaves the whole state unchanged. -/
theorem cancel_semantics (s : SchedState) (jid : String) :
    ((cancel_job s jid).1 = true ↔ ∃ j ∈ s.job_queue, j.job_id = jid) ∧
    ((cancel_job s jid).1 = false → (cancel_job s jid).2 = s) ∧
    (cancel_job s jid).2.processing_jobs = s.processing_jobs ∧
    (cancel_job s jid).2.completed_jobs = s.completed_jobs ∧
    (cancel_job s jid).2.failed_jobs = s.failed_jobs ∧
    ((s.job_queue.map (·.job_id)).Nodup → (cancel_job s jid).1 = true →
      jid ∉ (cancel_job s jid).2.job_queue.map (·.job_id)) := by
  rw [cancel_job]
  by_cases hfind : (s.job_queue.find? (fun j => j.job_id == jid)).isSome = true
  · rw [if_pos hfind]
    dsimp only
    refine ⟨?_, ?_, rfl, rfl, rfl, ?_⟩
    · rw [List.find?_isSome] at hfind
      obtain ⟨j, hjm, hjid⟩ := hfind
      exact ⟨fun _ => ⟨j, hjm, by simpa using hjid⟩, fun _ => rfl⟩
    · intro hcontra
      cases hcontra
    · intro hnd _
      exact eraseP_key_not_mem s.job_queue jid hnd
  · rw [if_neg hfind]
    dsimp only
    refine ⟨?_, fun _ => rfl, rfl, rfl, rfl, ?_⟩
    · constructor
      · intro hcontra
        cases hcontra
      · rintro ⟨j, hjm, hjid⟩
        exact absurd (List.find?_isSome.mpr ⟨j, hjm, by simp [hjid]⟩) hfind
    · intro _ hcontra
      cases hcontra

def c9state : SchedState :=
  ⟨[mkJob "q1" [] .normal 0], [mkJob "p1" [] .normal 0], [], []⟩

/-- Witness for `cancel_semantics`: cancelling the queued job succeeds and
removes its id; cancelling an unknown id fails and changes nothing. -/
theorem cancel_semantics_witness :
    (cancel_job c9state "q1").1 = true ∧
    (cancel_job c9state "nope").2 = c9state ∧
    "q1" ∉ (cancel_job c9state "q1").2.job_queue.map (·.job_id) :=
  ⟨(cancel_semantics c9state "q1").1.mpr ⟨mkJob "q1" [] .normal 0, by decide, rfl⟩,
    (cancel_semantics c9state "nope").2.1 (by decide),
    (cancel_semantics c9state "q1").2.2.2.2.2 (by decide)
      ((cancel_semantics c9state "q1").1.mpr ⟨mkJob "q1" [] .normal 0, by decide, rfl⟩)⟩

theorem mem_allIds_iff (s : SchedState) (jid : String) :
    jid ∈ allIds s ↔
      jid ∈ s.job_queue.map (·.job_id) ∨ jid ∈ s.processing_jobs.map (·.job_id) ∨
      jid ∈ s.completed_jobs.map (·.job_id) ∨ jid ∈ s.failed_jobs.map (·.job_id) := by
  simp [allIds, allJobs]

/-- C10: after a successful cancel of a queued job (in a reachable state), the
id is held in no scheduler store and `get_job_status` for it returns `none`;
`get_job_status` never returns a `Cancelled` job; and an absent id can only
reappear through a fresh submission that reuses it (which the uuid4 id supply
precludes). -/
theorem cancelled_never_observable (s : SchedState) (jid : String) (hs : Reach s) :
    ((cancel_job s jid).1 = true →
      jid ∉ allIds (cancel_job s jid).2 ∧
      get_job_status (cancel_job s jid).2 jid = none) ∧
    (∀ j, get_job_status s jid = some j → j.status ≠ .cancelled) ∧
    (∀ s2 s3, SchedStep s2 s3 → jid ∉ allIds s2 → jid ∈ allIds s3 →
      ∃ images priority t, s3 = submit_job s2 images priority jid t) := by
  refine ⟨?_, ?_, ?_⟩
  · intro htrue
    have huniq : (allIds s).Nodup := reach_uniqueIds hs
    have hsplit : allIds s = s.job_queue.map (·.job_id) ++
        (s.processing_jobs.map (·.job_id) ++
          (s.completed_jobs.map (·.job_id) ++ s.failed_jobs.map (·.job_id))) := by
      simp [allIds, allJobs]
    rw [hsplit] at huniq
    have hndQ : (s.job_queue.map (·.job_id)).Nodup := huniq.of_append_left
    have hfind : (s.job_queue.find? (fun j => j.job_id == jid)).isSome = true := by
      rw [cancel_job] at htrue
      by_contra hno
      rw [if_neg hno] at htrue
      cases htrue
    have hjidQ : jid ∈ s.job_queue.map (·.job_id) := by
      rw [List.find?_isSome] at hfind
      obtain ⟨j, hjm, hjid⟩ := hfind
      exact List.mem_map.mpr ⟨j, hjm, by simpa using hjid⟩
    have hdisj : jid ∉ s.processing_jobs.map (·.job_id) ++
        (s.completed_jobs.map (·.job_id) ++ s.failed_jobs.map (·.job_id)) :=
      fun hmem => (List.disjoint_of_nodup_append huniq) hjidQ hmem
    have hcq : (cancel_job s jid).2 = { s with
        job_queue := s.job_queue.eraseP (fun j => j.job_id == jid) } := by
      rw [cancel_job, if_pos hfind]
    have hnq : jid ∉ (s.job_queue.eraseP (fun j => j.job_id == jid)).map (·.job_id) :=
      eraseP_key_not_mem s.job_queue jid hndQ
    have hnp : jid ∉ s.processing_jobs.map (·.job_id) := by
      intro hmem
      exact hdisj (List.mem_append.mpr (Or.inl hmem))
    have hnc : jid ∉ s.completed_jobs.map (·.job_id) := by
      intro hmem
      exact hdisj (List.mem_append.mpr (Or.inr (List.mem_append.mpr (Or.inl hmem))))
    have hnf : jid ∉ s.failed_jobs.map (·.job_id) := by
      intro hmem
      exact hdisj (List.mem_append.mpr (Or.inr (List.mem_append.mpr (Or.inr hmem))))
    constructor
    · rw [hcq, mem_allIds_iff]
      dsimp only
      rintro (hmem | hmem | hmem | hmem)
      · exact hnq hmem
      · exact hnp hmem
      · exact hnc hmem
      · exact hnf hmem
    · have hfq : ∀ (l : List OCRJob), jid ∉ l.map (·.job_id) →
          l.find? (fun j => j.job_id == jid) = none := by
        intro l hl
        rw [List.find?_eq_none]
        intro x hx hbeq
        exact hl (List.mem_map.mpr ⟨x, hx, by simpa using hbeq⟩)
      rw [hcq, get_job_status]
      dsimp only
      rw [hfq _ hnp, hfq _ hnc, hfq _ hnf, hfq _ hnq]
  · intro j hjs
    obtain ⟨hq, hp, hc, hf⟩ := reach_inv hs
    rw [get_job_status] at hjs
    cases hP : s.processing_jobs.find? (fun x => x.job_id == jid) with
    | some jp =>
      rw [hP] at hjs
      cases hjs
      rw [(hp j (List.mem_of_find?_eq_some hP)).1]
      intro hcontra
      cases hcontra
    | none =>
      rw [hP] at hjs
      cases hC : s.completed_jobs.find? (fun x => x.job_id == jid) with
      | some jc =>
        rw [hC] at hjs
        cases hjs
        rw [(hc j (List.mem_of_find?_eq_some hC)).1]
        intro hcontra
        cases hcontra
      | none =>
        rw [hC] at hjs
        cases hF : s.failed_jobs.find? (fun x => x.job_id == jid) with
        | some jf =>
          rw [hF] at hjs
          cases hjs
          rw [(hf j (List.mem_of_find?_eq_some hF)).1]
          intro hcontra
          cases hcontra
        | none =>
          rw [hF] at hjs
          rw [(hq j (List.mem_of_find?_eq_some hjs)).1]
          intro hcontra
          cases hcontra
  · intro s2 s3 hstep habs hmem
    cases hstep with
    | submit images priority job_id t hfresh =>
      rw [mem_allIds_iff] at hmem
      dsimp only [submit_job] at hmem
      have hq : jid ∈ (s2.job_queue ++ [mkJob job_id images priority t]).map (·.job_id) := by
        rcases hmem with hm | hm | hm | hm
        · exact hm
        all_goals exact absurd (by rw [mem_allIds_iff]; tauto) habs
      rw [List.map_append, List.mem_append] at hq
      rcases hq with hm | hm
      · exact absurd (by rw [mem_allIds_iff]; tauto) habs
      · simp [mkJob] at hm
        subst hm
        exact ⟨images, priority, t, rfl⟩
    | dispatch t hne =>
      exfalso
      match hqeq : s2.job_queue with
      | [] => exact absurd hqeq hne
      | q0 :: qs =>
        rw [mem_allIds_iff] at hmem
        dsimp only [dispatch_next] at hmem
        rw [hqeq] at hmem
        dsimp only at hmem
        apply habs
        rw [mem_allIds_iff]
        rcases hmem with hm | hm | hm | hm
        · left
          rw [hqeq]
          have : jid ∈ ((selectMin q0 qs).1 :: (selectMin q0 qs).2).map (·.job_id) :=
            List.mem_cons.mpr (Or.inr hm)
          exact ((selectMin_perm q0 qs).map (·.job_id)).mem_iff.mp this
        · rw [List.map_append, List.mem_append] at hm
          rcases hm with hm | hm
          · right; left; exact hm
          · left
            rw [hqeq]
            simp at hm
            have : jid ∈ ((selectMin q0 qs).1 :: (selectMin q0 qs).2).map (·.job_id) := by
              rw [List.map_cons, hm]
              exact List.mem_cons_self _ _
            exact ((selectMin_perm q0 qs).map (·.job_id)).mem_iff.mp this
        · right; right; left; exact hm
        · right; right; right; exact hm
    | complete j res t hj =>
      exfalso
      rw [mem_allIds_iff] at hmem
      dsimp only [complete_job] at hmem
      apply habs
      rw [mem_allIds_iff]
      rcases hmem with hm | hm | hm | hm
      · left; exact hm
      · right; left
        obtain ⟨x, hx, hxe⟩ := List.mem_map.mp hm
        exact List.mem_map.mpr ⟨x, List.mem_of_mem_filter hx, hxe⟩
      · rw [List.map_append, List.mem_append] at hm
        rcases hm with hm | hm
        · right; right; left; exact hm
        · right; left
          simp at hm
          rw [hm]
          exact List.mem_map_of_mem _ hj
      · right; right; right; exact hm
    | fail j e t hj =>
      exfalso
      have hid : (apply_failure j e t).job_id = j.job_id := by
        rw [apply_failure]
        split_ifs <;> rfl
      rw [mem_allIds_iff] at hmem
      rw [fail_job] at hmem
      dsimp only at hmem
      apply habs
      rw [mem_allIds_iff]
      split_ifs at hmem with hcond
      · dsimp only at hmem
        rcases hmem with hm | hm | hm | hm
        · rw [List.map_append, List.mem_append] at hm
          rcases hm with hm | hm
          · left; exact hm
          · right; left
            simp [hid] at hm
            rw [hm]
            exact List.mem_map_of_mem _ hj
        · right; left
          obtain ⟨x, hx, hxe⟩ := List.mem_map.mp hm
          exact List.mem_map.mpr ⟨x, List.mem_of_mem_filter hx, hxe⟩
        · right; right; left; exact hm
        · right; right; right; exact hm
      · dsimp only at hmem
        rcases hmem with hm | hm | hm | hm
        · left; exact hm
        · right; left
          obtain ⟨x, hx, hxe⟩ := List.mem_map.mp hm
          exact List.mem_map.mpr ⟨x, List.mem_of_mem_filter hx, hxe⟩
        · right; right; left; exact hm
        · rw [List.map_append, List.mem_append] at hm
          rcases hm with hm | hm
          · right; right; right; exact hm
          · right; left
            simp [hid] at hm
            rw [hm]
            exact List.mem_map_of_mem _ hj
    | cancel job_id =>
      exfalso
      rw [cancel_job] at hmem
      split_ifs at hmem with hfind
      · rw [mem_allIds_iff] at hmem
        dsimp only at hmem
        apply habs
        rw [mem_allIds_iff]
        rcases hmem with hm | hm | hm | hm
        · left
          obtain ⟨x, hx, hxe⟩ := List.mem_map.mp hm
          exact List.mem_map.mpr ⟨x, List.mem_of_mem_eraseP hx, hxe⟩
        · right; left; exact hm
        · right; right; left; exact hm
        · right; right; right; exact hm
      · exact habs hmem

def c10state : SchedState := submit_job initState [] .normal "c10" 0

/-- Witness for `cancelled_never_observable`: cancel the single queued job of
a concrete reachable state and observe it is gone from every store. -/
theorem cancelled_never_observable_witness :
    "c10" ∉ allIds (cancel_job c10state "c10").2 ∧
    get_job_status (cancel_job c10state "c10").2 "c10" = none :=
  (cancelled_never_observable c10state "c10"
    (Relation.ReflTransGen.refl.tail (SchedStep.submit initState [] .normal "c10" 0
      (by intro j hj; simp [allJobs, initState] at hj)))).1 (by decide)
